import Mathlib

/- Shallow embedding of the static-analysis core of the Oak PEG compiler:
   the well-formedness analyser (src/liboak/middle/analysis/well_formedness.rs),
   the duplicate detector (src/liboak/middle/analysis/duplicate.rs) and the
   optional-operator compiler (src/liboak/back/compiler/optional.rs together
   with src/liboak/back/continuation.rs).

   Machine integers do not occur in the modelled code; expression indices are
   Rust usize used only as table keys and are modelled as Nat.  The visitor
   recursion of the analyser runs over a table of expressions addressed by
   index, so it is embedded with an explicit fuel parameter; every theorem
   either quantifies over the fuel or instantiates it with a concrete value
   large enough for the grammar at hand.  Diagnostics emitted to the host
   compiler's sink are modelled as a list accumulated in the analyser state,
   each diagnostic carrying the data the Rust code puts into the message:
   the primary span, the span note and, for left recursion, the rule cycle. -/

namespace Oak

/-- Well-formedness attributes, one per expression (struct `WFA`). -/
structure WFA where
  can_fail : Bool
  can_succeed : Bool
  always_consume : Bool
  never_consume : Bool
  deriving DecidableEq, Repr

/-- The `Default` impl of `WFA`: the conservative top value. -/
def WFA.default : WFA := ⟨true, true, true, false⟩

/-- `WFA::always_succeed(never_consume)` from the source. -/
def WFA.always_succeed (never_consume : Bool) : WFA :=
  ⟨false, true, false, never_consume⟩

/-- Expression kinds of the typed AST, children addressed by dense index
    into the grammar's expression table (spec section 3; the AST type itself
    lives in `middle/analysis/ast.rs`, outside `src/`, and is modelled from
    the spec's table of kinds). -/
inductive Expression where
  | str_literal (lit : String)
  | char_class
  | any_char
  | non_terminal (rule : String)
  | sequence (children : List Nat)
  | choice (children : List Nat)
  | zero_or_more (child : Nat)
  | one_or_more (child : Nat)
  | optional (child : Nat)
  | and_predicate (child : Nat)
  | not_predicate (child : Nat)
  deriving DecidableEq, Repr

/-- A rule: an identifier and the index of its body expression. -/
structure Rule where
  ident : String
  expr_idx : Nat
  deriving DecidableEq, Repr

/-- A typed grammar: ordered rules plus the expression table. -/
structure AGrammar where
  rules : List Rule
  exprs : List Expression
  deriving DecidableEq, Repr

/-- `ExprByIndex::expr_by_index`; out-of-range access panics in Rust and is
    modelled by an arbitrary atom (never exercised on the concrete inputs). -/
def AGrammar.expr_by_index (g : AGrammar) (i : Nat) : Expression :=
  g.exprs.getD i .any_char

/-- `Grammar::expr_index_of_rule` (lookup of a rule's body index by ident). -/
def AGrammar.expr_index_of_rule (g : AGrammar) (r : String) : Nat :=
  ((g.rules.find? (fun ru => ru.ident == r)).map Rule.expr_idx).getD 0

/-- The source location a diagnostic is attached to: the span of a whole rule
    (`rule.span()`) or the span of one expression (`grammar[idx].span()`). -/
inductive Span where
  | rule_span (rule : String)
  | expr_span (idx : Nat)
  deriving DecidableEq, Repr

/-- One diagnostic delivered to the host compiler's sink, carrying the data
    the corresponding `error_*` method of `WellFormedness` formats into it. -/
inductive Diagnostic where
  | left_recursion (rule : String) (cycle : List String)
  | never_succeed (expr_idx : Nat)
  | always_succeed_no_consume (expr_idx : Nat)
  | loop_repeat (expr_idx : Nat)
  | unreachable_branch (choice_idx : Nat) (branch_idx : Nat)
  deriving DecidableEq, Repr

/-- The primary span of a diagnostic: `error_left_recursion` attaches to the
    rule's own span, `error_unreachable_branches` to the choice expression,
    the other three to the offending expression itself. -/
def Diagnostic.primary_span : Diagnostic → Span
  | .left_recursion r _ => .rule_span r
  | .never_succeed i => .expr_span i
  | .always_succeed_no_consume i => .expr_span i
  | .loop_repeat i => .expr_span i
  | .unreachable_branch c _ => .expr_span c

/-- The expression index a diagnostic was registered under in the `errors`
    set: the rule's body index for left recursion, the infallible branch for
    unreachable branches, the expression itself otherwise. -/
def Diagnostic.reg_key (g : AGrammar) : Diagnostic → Nat
  | .left_recursion r _ => g.expr_index_of_rule r
  | .never_succeed i => i
  | .always_succeed_no_consume i => i
  | .loop_repeat i => i
  | .unreachable_branch _ b => b

/-- The mutable state of `struct WellFormedness`, with the diagnostic sink
    made explicit.  `recursion_path` holds the top of the stack at its head
    (Rust pushes and pops at the end of the `Vec`). -/
structure WFState where
  recursion_path : List (String × Bool)
  consumed_input : Bool
  rules_wfa : List (String × WFA)
  reached_fixpoint : Bool
  well_formed : Bool
  errors : List Nat
  diagnostics : List Diagnostic
  deriving DecidableEq, Repr

/-- Read `rules_wfa[&rule]` (the map is seeded with every rule, so the
    default branch is never taken on well-seeded states). -/
def lookup_wfa (st : WFState) (r : String) : WFA :=
  ((st.rules_wfa.find? (fun p => p.1 == r)).map Prod.snd).getD WFA.default

/-- Write `rules_wfa[&rule] = w`. -/
def set_wfa (l : List (String × WFA)) (r : String) (w : WFA) : List (String × WFA) :=
  l.map (fun p => if p.1 == r then (p.1, w) else p)

/-- `WellFormedness::is_rec`. -/
def is_rec (st : WFState) (r : String) : Bool :=
  st.recursion_path.any (fun p => p.1 == r)

/-- `WellFormedness::rec_path_from`: the frames strictly above the matching
    frame, top-most first. -/
def rec_path_from (st : WFState) (r : String) : List (String × Bool) :=
  st.recursion_path.takeWhile (fun p => p.1 != r)

/-- `WellFormedness::consume_input_since`: OR of the stacked
    `consumed_input` flags above the matching frame. -/
def consume_input_since (st : WFState) (r : String) : Bool :=
  (rec_path_from st r).any (fun p => p.2)

/-- `WellFormedness::register_error`: insert into the `errors` set, telling
    whether the index was new. -/
def register_error (i : Nat) (st : WFState) : Bool × WFState :=
  if i ∈ st.errors then (false, st)
  else (true, { st with errors := i :: st.errors })

/-- `WellFormedness::error_left_recursion`.  Note that `well_formed` is
    cleared before the registration check, so it is cleared even when the
    diagnostic is suppressed; the cycle named in the message is the rule
    followed by the frames above its own, bottom-up. -/
def error_left_recursion (g : AGrammar) (r : String) (st : WFState) : WFState :=
  let st0 : WFState := { st with well_formed := false }
  let fr := register_error (g.expr_index_of_rule r) st0
  if fr.1 then
    { fr.2 with diagnostics := fr.2.diagnostics ++
        [.left_recursion r (r :: ((rec_path_from st r).map Prod.fst).reverse)] }
  else fr.2

/-- `WellFormedness::error_never_succeed`. -/
def error_never_succeed (i : Nat) (st : WFState) : WFState :=
  let fr := register_error i st
  if fr.1 then
    { fr.2 with well_formed := false,
                diagnostics := fr.2.diagnostics ++ [.never_succeed i] }
  else fr.2

/-- `WellFormedness::error_always_succeed_without_consuming`. -/
def error_always_succeed_no_consume (i : Nat) (st : WFState) : WFState :=
  let fr := register_error i st
  if fr.1 then
    { fr.2 with well_formed := false,
                diagnostics := fr.2.diagnostics ++ [.always_succeed_no_consume i] }
  else fr.2

/-- `WellFormedness::error_loop_repeat`. -/
def error_loop_repeat (i : Nat) (st : WFState) : WFState :=
  let fr := register_error i st
  if fr.1 then
    { fr.2 with well_formed := false,
                diagnostics := fr.2.diagnostics ++ [.loop_repeat i] }
  else fr.2

/-- `WellFormedness::error_unreachable_branches`: registered under the
    always-succeeding branch, attached to the choice's span with a span note
    at the branch. -/
def error_unreachable_branches (choice_idx branch_idx : Nat) (st : WFState) : WFState :=
  let fr := register_error branch_idx st
  if fr.1 then
    { fr.2 with well_formed := false,
                diagnostics := fr.2.diagnostics ++ [.unreachable_branch choice_idx branch_idx] }
  else fr.2

/-- The tail of `Visitor::visit_expr` for `WellFormedness`: the two
    expression-level diagnostics and their error recoveries, applied to the
    WFA produced by `walk_expr`. -/
def post_wfa (this : Nat) (w : WFA) (st : WFState) : WFA × WFState :=
  if w.can_fail && !w.can_succeed then
    ({ w with can_succeed := true }, error_never_succeed this st)
  else if w.can_succeed && !w.can_fail && w.never_consume then
    ({ w with never_consume := false }, error_always_succeed_no_consume this st)
  else (w, st)

/-- `WellFormedness::visit_repeat` after the child has been visited: the
    loop-repeat check shared by `e*` and `e+`. -/
def repeat_wfa (this : Nat) (child_wfa : WFA) (st : WFState) : WFA × WFState :=
  if child_wfa.can_succeed && !child_wfa.always_consume then
    (WFA.default, error_loop_repeat this st)
  else (child_wfa, st)

mutual

/-- `Visitor::visit_expr` for `WellFormedness`: `walk_expr` then the
    expression-level diagnostics of `post_wfa`.  The fuel only bounds the
    recursion depth; one unit is consumed per nested call so that the
    recursion is structural on the fuel. -/
def visit_expr (g : AGrammar) (fuel : Nat) (st : WFState) (this : Nat) : WFA × WFState :=
  match fuel with
  | 0 => (WFA.default, st)
  | f + 1 =>
    let ws := walk_expr g f st this
    post_wfa this ws.1 ws.2
termination_by structural fuel

/-- Dispatch on the expression kind (`walk_expr` of the visitor protocol;
    the trait glue lives in `middle/analysis/ast.rs` outside `src/`, so the
    per-kind routing follows the spec's table in section 4.2: atoms map to
    the default WFA, `OneOrMore` to `visit_repeat`, and each remaining kind
    to the like-named `visit_*` method of `well_formedness.rs`). -/
def walk_expr (g : AGrammar) (fuel : Nat) (st : WFState) (this : Nat) : WFA × WFState :=
  match fuel with
  | 0 => (WFA.default, st)
  | f + 1 =>
    match g.expr_by_index this with
    | .str_literal lit =>
      (if lit.isEmpty then { WFA.default with can_fail := false, always_consume := false }
       else WFA.default, st)
    | .char_class => (WFA.default, st)
    | .any_char => (WFA.default, st)
    | .non_terminal r => visit_rule g f st r
    | .sequence children =>
      let savepoint := st.consumed_input
      let res := seq_fold g f children ⟨false, true, false, true⟩ st
      (res.1, { res.2 with consumed_input := savepoint })
    | .choice children => choice_fold g f this children ⟨true, false, true, true⟩ st
    | .zero_or_more child =>
      let cres := visit_expr g f st child
      let rres := repeat_wfa this cres.1 cres.2
      (WFA.always_succeed rres.1.never_consume, rres.2)
    | .one_or_more child =>
      let cres := visit_expr g f st child
      repeat_wfa this cres.1 cres.2
    | .optional child =>
      let cres := visit_expr g f st child
      (WFA.always_succeed cres.1.never_consume, cres.2)
    | .and_predicate child =>
      let cres := visit_expr g f st child
      ({ cres.1 with always_consume := false, never_consume := true }, cres.2)
    | .not_predicate child =>
      let cres := visit_expr g f st child
      let w : WFA := { cres.1 with always_consume := false, never_consume := true }
      ({ w with can_fail := w.can_succeed, can_succeed := w.can_fail }, cres.2)
termination_by structural fuel

/-- `WellFormedness::visit_rule`.  The branch for a rule already on the
    recursion path makes no recursive call and is independent of the fuel. -/
def visit_rule (g : AGrammar) (fuel : Nat) (st : WFState) (r : String) : WFA × WFState :=
  if is_rec st r then
    let st1 := if !consume_input_since st r && !st.consumed_input
               then error_left_recursion g r st else st
    (lookup_wfa st1 r, st1)
  else
    match fuel with
    | 0 => (lookup_wfa st r, st)
    | f + 1 =>
      let pushed : WFState :=
        { st with recursion_path := (r, st.consumed_input) :: st.recursion_path,
                  consumed_input := false }
      let res := visit_expr g f pushed (g.expr_index_of_rule r)
      let saved := ((res.2.recursion_path.head?).map Prod.snd).getD false
      let popped : WFState :=
        { res.2 with recursion_path := res.2.recursion_path.tail, consumed_input := saved }
      let upd : WFState :=
        if res.1 = lookup_wfa popped r then popped
        else { popped with reached_fixpoint := false,
                           rules_wfa := set_wfa popped.rules_wfa r res.1 }
      (lookup_wfa upd r, upd)
termination_by structural fuel

/-- The accumulator loop of `visit_sequence`. -/
def seq_fold (g : AGrammar) (fuel : Nat) (cs : List Nat) (acc : WFA) (st : WFState) :
    WFA × WFState :=
  match cs, fuel with
  | [], _ => (acc, st)
  | _ :: _, 0 => (WFA.default, st)
  | c :: cs2, f + 1 =>
    let res := visit_expr g f st c
    let w := res.1
    let acc2 : WFA := ⟨acc.can_fail || w.can_fail, acc.can_succeed && w.can_succeed,
                       acc.always_consume || w.always_consume,
                       acc.never_consume && w.never_consume⟩
    let st2 := if w.always_consume then { res.2 with consumed_input := true } else res.2
    seq_fold g f cs2 acc2 st2
termination_by structural fuel

/-- The accumulator loop of `visit_choice`, with the save/restore of
    `consumed_input` around each child and the unreachable-branch early
    return on a non-last infallible child. -/
def choice_fold (g : AGrammar) (fuel : Nat) (this : Nat) (cs : List Nat) (acc : WFA)
    (st : WFState) : WFA × WFState :=
  match cs, fuel with
  | [], _ => (acc, st)
  | _ :: _, 0 => (WFA.default, st)
  | c :: cs2, f + 1 =>
    let savepoint := st.consumed_input
    let res := visit_expr g f st c
    let w := res.1
    let st2 : WFState := { res.2 with consumed_input := savepoint }
    let acc2 : WFA := ⟨acc.can_fail && w.can_fail, acc.can_succeed || w.can_succeed,
                       acc.always_consume && w.always_consume,
                       acc.never_consume && w.never_consume⟩
    if !cs2.isEmpty && !w.can_fail then (acc2, error_unreachable_branches this c st2)
    else choice_fold g f this cs2 acc2 st2
termination_by structural fuel

end


/-- The body of the `for` loop in `WellFormedness::visit_rules`: visit each
    rule in declaration order, breaking once `well_formed` is cleared. -/
def visit_rules_pass (g : AGrammar) (fuel : Nat) : List Rule → WFState → WFState
  | [], st => st
  | r :: rs, st =>
    let st1 := (visit_rule g fuel st r.ident).2
    if st1.well_formed then visit_rules_pass g fuel rs st1 else st1

/-- The `while` loop of `WellFormedness::visit_rules`, with an explicit
    bound on the number of passes. -/
def visit_rules (g : AGrammar) (passes fuel : Nat) (st : WFState) : WFState :=
  match passes with
  | 0 => st
  | p + 1 =>
    if !st.reached_fixpoint && st.well_formed then
      visit_rules g p fuel (visit_rules_pass g fuel g.rules { st with reached_fixpoint := true })
    else st

/-- `WellFormedness::new`: the seeded analyser state. -/
def initial_state (g : AGrammar) : WFState :=
  ⟨[], false, g.rules.map (fun r => (r.ident, WFA.default)), false, true, [], []⟩

/-- Run the whole analysis (`is_well_formed` up to its final flag read). -/
def run_analysis (g : AGrammar) (passes fuel : Nat) : WFState :=
  visit_rules g passes fuel (initial_state g)

/-- The three-valued analysis outcome (`Partial` in `partial.rs`). -/
inductive Outcome (α : Type) where
  | value (v : α)
  | fake (v : α)
  | nothing
  deriving DecidableEq, Repr

/-- `WellFormedness::analyse`. -/
def analyse (g : AGrammar) (passes fuel : Nat) : Outcome AGrammar :=
  if (run_analysis g passes fuel).well_formed then .value g else .nothing

end Oak

namespace Oak

/- Concrete grammars used as counterexamples and witnesses.  Expression
   tables are written index-first in the comments. -/

/-- Grammar `a = !"" ; b = !""` : two rules, each with a never-succeeding
    body (exprs: 0 `""`, 1 `!""`, 2 `""`, 3 `!""`). -/
def Gc3 : AGrammar :=
  ⟨[⟨"a", 1⟩, ⟨"b", 3⟩],
   [.str_literal "", .not_predicate 0, .str_literal "", .not_predicate 2]⟩

/-- Grammar `a = !"" !""` : two never-succeeding children inside one rule
    (exprs: 0 `""`, 1 `!""`, 2 `""`, 3 `!""`, 4 the sequence). -/
def Gwithin : AGrammar :=
  ⟨[⟨"a", 4⟩],
   [.str_literal "", .not_predicate 0, .str_literal "", .not_predicate 2, .sequence [1, 3]]⟩

/-- Grammar `r = s t ; s = s / "w"? / "y" ; t = "z" s` (exprs: 0 `"w"`,
    1 `"w"?`, 2 `s`, 3 `"y"`, 4 the choice, 5 `s`, 6 `t`, 7 `s t`,
    8 `"z"`, 9 `s`, 10 `"z" s`). -/
def G4 : AGrammar :=
  ⟨[⟨"r", 7⟩, ⟨"s", 4⟩, ⟨"t", 10⟩],
   [.str_literal "w", .optional 0, .non_terminal "s", .str_literal "y", .choice [2, 1, 3],
    .non_terminal "s", .non_terminal "t", .sequence [5, 6],
    .str_literal "z", .non_terminal "s", .sequence [8, 9]]⟩

/-- Grammar `s = s? s` (exprs: 0 `s`, 1 `s?`, 2 `s`, 3 the sequence). -/
def G2 : AGrammar :=
  ⟨[⟨"s", 3⟩], [.non_terminal "s", .optional 0, .non_terminal "s", .sequence [1, 2]]⟩

/-- Grammar `r = s s ; s = "w"? / "y"` (exprs: 0 `"w"`, 1 `"w"?`, 2 `"y"`,
    3 the choice, 4 `s`, 5 `s`, 6 the sequence). -/
def G5 : AGrammar :=
  ⟨[⟨"r", 6⟩, ⟨"s", 3⟩],
   [.str_literal "w", .optional 0, .str_literal "y", .choice [1, 2],
    .non_terminal "s", .non_terminal "s", .sequence [4, 5]]⟩

/-- Grammar `r = s s ; s = (!.)*` (exprs: 0 `.`, 1 `!.`, 2 the star,
    3 `s`, 4 `s`, 5 the sequence). -/
def G6 : AGrammar :=
  ⟨[⟨"r", 5⟩, ⟨"s", 2⟩],
   [.any_char, .not_predicate 0, .zero_or_more 1, .non_terminal "s", .non_terminal "s",
    .sequence [3, 4]]⟩

/-- Grammar `r = s s ; s = !""` (exprs: 0 `""`, 1 `!""`, 2 `s`, 3 `s`,
    4 the sequence). -/
def G7 : AGrammar :=
  ⟨[⟨"r", 4⟩, ⟨"s", 1⟩],
   [.str_literal "", .not_predicate 0, .non_terminal "s", .non_terminal "s", .sequence [2, 3]]⟩

/-- The spec's clean scenario `b = "a" b "b" / "b" b`. -/
def Gs2 : AGrammar :=
  ⟨[⟨"b", 7⟩],
   [.str_literal "a", .non_terminal "b", .str_literal "b", .sequence [0, 1, 2],
    .str_literal "b", .non_terminal "b", .sequence [4, 5], .choice [3, 6]]⟩

/-- The analyser state of the `G2` run at the second recursive reference to
    `s`: the left-recursion condition holds again but index 3 is already in
    the `errors` set. -/
def stC2 : WFState :=
  ⟨[("s", false)], false, [("s", WFA.default)], true, false, [3],
   [.left_recursion "s" ["s"]]⟩

/-- The analyser state of the `G5` run when the choice of rule `s` is
    visited a second time (branch 1 already registered). -/
def stC5 : WFState :=
  ⟨[("s", false), ("r", false)], false,
   [("r", WFA.default), ("s", ⟨false, true, false, false⟩)], false, false, [1],
   [.unreachable_branch 3 1]⟩

/-- The analyser state of the `G6` run when the star of rule `s` is visited
    a second time (index 2 already registered). -/
def stC6 : WFState :=
  ⟨[("s", false), ("r", false)], false,
   [("r", WFA.default), ("s", ⟨false, true, false, false⟩)], false, false, [2],
   [.loop_repeat 2]⟩

/-- The analyser state of the `G7` run when the body of rule `s` is visited
    a second time (index 1 already registered). -/
def stC7 : WFState :=
  ⟨[("s", false), ("r", false)], false,
   [("r", WFA.default), ("s", ⟨true, true, false, true⟩)], false, false, [1],
   [.never_succeed 1]⟩

end Oak

namespace Oak

/- Characterizations of the five error methods: registration in the
   `errors` set gates the emission of the diagnostic. -/

theorem register_error_mem {i : Nat} {st : WFState} (h : i ∈ st.errors) :
    register_error i st = (false, st) := by
  simp [register_error, h]

theorem register_error_not_mem {i : Nat} {st : WFState} (h : i ∉ st.errors) :
    register_error i st = (true, { st with errors := i :: st.errors }) := by
  simp [register_error, h]

theorem error_never_succeed_not_mem {i : Nat} {st : WFState} (h : i ∉ st.errors) :
    error_never_succeed i st =
      { st with well_formed := false, errors := i :: st.errors,
                diagnostics := st.diagnostics ++ [.never_succeed i] } := by
  simp [error_never_succeed, register_error_not_mem h]

theorem error_never_succeed_mem {i : Nat} {st : WFState} (h : i ∈ st.errors) :
    error_never_succeed i st = st := by
  simp [error_never_succeed, register_error_mem h]

theorem error_always_succeed_no_consume_not_mem {i : Nat} {st : WFState} (h : i ∉ st.errors) :
    error_always_succeed_no_consume i st =
      { st with well_formed := false, errors := i :: st.errors,
                diagnostics := st.diagnostics ++ [.always_succeed_no_consume i] } := by
  simp [error_always_succeed_no_consume, register_error_not_mem h]

theorem error_always_succeed_no_consume_mem {i : Nat} {st : WFState} (h : i ∈ st.errors) :
    error_always_succeed_no_consume i st = st := by
  simp [error_always_succeed_no_consume, register_error_mem h]

theorem error_loop_repeat_not_mem {i : Nat} {st : WFState} (h : i ∉ st.errors) :
    error_loop_repeat i st =
      { st with well_formed := false, errors := i :: st.errors,
                diagnostics := st.diagnostics ++ [.loop_repeat i] } := by
  simp [error_loop_repeat, register_error_not_mem h]

theorem error_loop_repeat_mem {i : Nat} {st : WFState} (h : i ∈ st.errors) :
    error_loop_repeat i st = st := by
  simp [error_loop_repeat, register_error_mem h]

theorem error_unreachable_branches_not_mem {c b : Nat} {st : WFState} (h : b ∉ st.errors) :
    error_unreachable_branches c b st =
      { st with well_formed := false, errors := b :: st.errors,
                diagnostics := st.diagnostics ++ [.unreachable_branch c b] } := by
  simp [error_unreachable_branches, register_error_not_mem h]

theorem error_unreachable_branches_mem {c b : Nat} {st : WFState} (h : b ∈ st.errors) :
    error_unreachable_branches c b st = st := by
  simp [error_unreachable_branches, register_error_mem h]

theorem error_left_recursion_not_mem {g : AGrammar} {r : String} {st : WFState}
    (h : g.expr_index_of_rule r ∉ st.errors) :
    error_left_recursion g r st =
      { st with well_formed := false, errors := g.expr_index_of_rule r :: st.errors,
                diagnostics := st.diagnostics ++
                  [.left_recursion r (r :: ((rec_path_from st r).map Prod.fst).reverse)] } := by
  have h2 : g.expr_index_of_rule r ∉
      (WFState.mk st.recursion_path st.consumed_input st.rules_wfa st.reached_fixpoint
        false st.errors st.diagnostics).errors := h
  simp [error_left_recursion, register_error_not_mem h2, rec_path_from]

theorem error_left_recursion_mem {g : AGrammar} {r : String} {st : WFState}
    (h : g.expr_index_of_rule r ∈ st.errors) :
    error_left_recursion g r st = { st with well_formed := false } := by
  have h2 : g.expr_index_of_rule r ∈
      (WFState.mk st.recursion_path st.consumed_input st.rules_wfa st.reached_fixpoint
        false st.errors st.diagnostics).errors := h
  simp [error_left_recursion, register_error_mem h2]

end Oak

namespace Oak

theorem error_left_recursion_rules_wfa (g : AGrammar) (r : String) (st : WFState) :
    (error_left_recursion g r st).rules_wfa = st.rules_wfa := by
  by_cases hm : g.expr_index_of_rule r ∈ st.errors
  · rw [error_left_recursion_mem hm]
  · rw [error_left_recursion_not_mem hm]

theorem error_left_recursion_recursion_path (g : AGrammar) (r : String) (st : WFState) :
    (error_left_recursion g r st).recursion_path = st.recursion_path := by
  by_cases hm : g.expr_index_of_rule r ∈ st.errors
  · rw [error_left_recursion_mem hm]
  · rw [error_left_recursion_not_mem hm]

theorem lookup_wfa_congr {st st2 : WFState} (r : String) (h : st.rules_wfa = st2.rules_wfa) :
    lookup_wfa st r = lookup_wfa st2 r := by
  unfold lookup_wfa
  rw [h]

/-- Claim C2 (amended): calling `visit_rule` on a rule already on
    `recursion_path` pushes no frame, leaves `rules_wfa` unchanged and
    returns the rule's currently stored WFA; when no `consumed_input` flag
    above the matching frame is set and the current `consumed_input` is
    false, `well_formed` is cleared and, provided no diagnostic has been
    registered yet at the rule's body index, a `LeftRecursion` diagnostic
    naming the cycle in path order is appended; if that index is already
    registered, only `well_formed` is cleared and no diagnostic is emitted;
    when input was consumed since the matching frame, the state is
    untouched. -/
theorem c2_recursive_visit (g : AGrammar) (fuel : Nat) (st : WFState) (r : String)
    (h : is_rec st r = true) :
    (visit_rule g fuel st r).1 = lookup_wfa st r ∧
    (visit_rule g fuel st r).2.recursion_path = st.recursion_path ∧
    (visit_rule g fuel st r).2.rules_wfa = st.rules_wfa ∧
    (consume_input_since st r = false → st.consumed_input = false →
      (visit_rule g fuel st r).2.well_formed = false ∧
      (g.expr_index_of_rule r ∉ st.errors →
        (visit_rule g fuel st r).2.diagnostics = st.diagnostics ++
          [.left_recursion r (r :: ((rec_path_from st r).map Prod.fst).reverse)]) ∧
      (g.expr_index_of_rule r ∈ st.errors →
        (visit_rule g fuel st r).2 = { st with well_formed := false })) ∧
    (consume_input_since st r = true ∨ st.consumed_input = true →
      (visit_rule g fuel st r).2 = st) := by
  rw [visit_rule.eq_def]
  simp only [h, if_true]
  rcases Bool.eq_false_or_eq_true (consume_input_since st r) with hci | hci
  · have hcond : (!consume_input_since st r && !st.consumed_input) = false := by
      rw [hci]; rfl
    simp only [hcond, Bool.false_eq_true, if_false]
    refine ⟨by trivial, by trivial, by trivial, ?_, fun _ => by trivial⟩
    intro h1 _
    simp [hci] at h1
  · rcases Bool.eq_false_or_eq_true st.consumed_input with hcc | hcc
    · have hcond : (!consume_input_since st r && !st.consumed_input) = false := by
        rw [hci, hcc]; rfl
      simp only [hcond, Bool.false_eq_true, if_false]
      refine ⟨by trivial, by trivial, by trivial, ?_, fun _ => by trivial⟩
      intro _ h2
      simp [hcc] at h2
    · have hcond : (!consume_input_since st r && !st.consumed_input) = true := by
        rw [hci, hcc]; rfl
      simp only [hcond, if_true]
      refine ⟨lookup_wfa_congr r (error_left_recursion_rules_wfa g r st),
              error_left_recursion_recursion_path g r st,
              error_left_recursion_rules_wfa g r st, ?_, ?_⟩
      · intro _ _
        refine ⟨?_, ?_, ?_⟩
        · by_cases hm : g.expr_index_of_rule r ∈ st.errors
          · rw [error_left_recursion_mem hm]
          · rw [error_left_recursion_not_mem hm]
        · intro hm
          rw [error_left_recursion_not_mem hm]
        · intro hm
          rw [error_left_recursion_mem hm]
      · intro hor
        rcases hor with h1 | h1
        · simp [hci] at h1
        · simp [hcc] at h1

/-- Witness for the amended claim C2 at a concrete recursive call state
    (the state reached by the analysis of the grammar `s = s? s` at the
    first recursive reference). -/
theorem c2_recursive_visit_witness :
    is_rec stC2 "s" = true ∧
    ((visit_rule G2 50 stC2 "s").1 = lookup_wfa stC2 "s" ∧
     (visit_rule G2 50 stC2 "s").2.recursion_path = stC2.recursion_path) := by
  refine ⟨by decide, ?_⟩
  have h := c2_recursive_visit G2 50 stC2 "s" (by decide)
  exact ⟨h.1, h.2.1⟩

/-- Counterexample to claim C2 as stated: at the second recursive reference
    of the run on `s = s? s` the no-consumption cycle condition holds, yet
    no diagnostic is emitted, because index 3 is already registered in the
    `errors` set. -/
theorem c2_counterexample :
    is_rec stC2 "s" = true ∧
    consume_input_since stC2 "s" = false ∧
    stC2.consumed_input = false ∧
    (visit_rule G2 50 stC2 "s").2.diagnostics = stC2.diagnostics := by
  refine ⟨by decide, by decide, by decide, by decide⟩

/-- Claim C3 (amended): the analysis does keep going after an error inside
    the rule currently being visited (the run on `a = !"" !""` reports both
    never-succeed errors), but the rule loop of `visit_rules` breaks once
    `well_formed` is false, so later rules are not visited in that pass and
    no further pass runs (the run on `a = !"" ; b = !""` reports only the
    error of `a`); the verdict is `Nothing` in both cases. -/
theorem c3_continue_within_rule_only :
    (∀ (g : AGrammar) (fuel : Nat) (r : Rule) (rs : List Rule) (st : WFState),
      (visit_rule g fuel st r.ident).2.well_formed = false →
        visit_rules_pass g fuel (r :: rs) st = (visit_rule g fuel st r.ident).2) ∧
    (run_analysis Gwithin 20 50).diagnostics = [.never_succeed 1, .never_succeed 3] ∧
    (run_analysis Gc3 20 50).diagnostics = [.never_succeed 1] ∧
    analyse Gc3 20 50 = .nothing ∧
    analyse Gwithin 20 50 = .nothing := by
  refine ⟨?_, by decide, by decide, by decide, by decide⟩
  intro g fuel r rs st hwf
  simp [visit_rules_pass, hwf]

/-- Witness for the amended claim C3: the pass on `Gc3` stops right after
    rule `a` whose visit clears `well_formed`. -/
theorem c3_continue_within_rule_only_witness :
    (visit_rule Gc3 50 (initial_state Gc3) (Rule.mk "a" 1).ident).2.well_formed = false ∧
    visit_rules_pass Gc3 50 (Rule.mk "a" 1 :: [Rule.mk "b" 3]) (initial_state Gc3)
      = (visit_rule Gc3 50 (initial_state Gc3) (Rule.mk "a" 1).ident).2 :=
  ⟨by decide, c3_continue_within_rule_only.1 Gc3 50 (Rule.mk "a" 1) [Rule.mk "b" 3]
      (initial_state Gc3) (by decide)⟩

/-- Counterexample to claim C3 as stated: on `a = !"" ; b = !""` the
    analysis stops after rule `a`, so the never-succeed error of rule `b`
    (which one more expression visit would report at index 3) is never
    discovered: the final diagnostics mention index 1 only. -/
theorem c3_counterexample :
    (run_analysis Gc3 20 50).diagnostics = [.never_succeed 1] ∧
    (visit_expr Gc3 50 (run_analysis Gc3 20 50) 3).2.diagnostics
      = [.never_succeed 1, .never_succeed 3] := by
  refine ⟨by decide, by decide⟩

end Oak

namespace Oak

/-- Claim C5 (amended): a choice is analysed by folding its children in
    order onto the accumulator started at
    `(can_fail, can_succeed, always_consume, never_consume) = (T, F, T, T)`,
    conjoining `can_fail`, `always_consume`, `never_consume` and disjoining
    `can_succeed`, restoring `consumed_input` after each child; when a child
    other than the last cannot fail, the partial accumulator is returned at
    once without visiting the remaining children, and an UnreachableBranch
    diagnostic on the choice with a span note at that child is emitted
    unless that child's index is already registered in the `errors` set. -/
theorem c5_choice_fold (g : AGrammar) (f : Nat) (st : WFState) (this : Nat) (cs : List Nat)
    (h : g.expr_by_index this = .choice cs) :
    walk_expr g (f + 1) st this = choice_fold g f this cs ⟨true, false, true, true⟩ st ∧
    (∀ (c : Nat) (rest : List Nat) (acc : WFA) (st0 : WFState),
      (rest = [] ∨ (visit_expr g f st0 c).1.can_fail = true →
        choice_fold g (f + 1) this (c :: rest) acc st0 =
          choice_fold g f this rest
            ⟨acc.can_fail && (visit_expr g f st0 c).1.can_fail,
             acc.can_succeed || (visit_expr g f st0 c).1.can_succeed,
             acc.always_consume && (visit_expr g f st0 c).1.always_consume,
             acc.never_consume && (visit_expr g f st0 c).1.never_consume⟩
            { (visit_expr g f st0 c).2 with consumed_input := st0.consumed_input }) ∧
      (rest ≠ [] → (visit_expr g f st0 c).1.can_fail = false →
        choice_fold g (f + 1) this (c :: rest) acc st0 =
          (⟨acc.can_fail && (visit_expr g f st0 c).1.can_fail,
            acc.can_succeed || (visit_expr g f st0 c).1.can_succeed,
            acc.always_consume && (visit_expr g f st0 c).1.always_consume,
            acc.never_consume && (visit_expr g f st0 c).1.never_consume⟩,
           error_unreachable_branches this c
             { (visit_expr g f st0 c).2 with consumed_input := st0.consumed_input }))) ∧
    (∀ (b : Nat) (st0 : WFState), b ∉ st0.errors → error_unreachable_branches this b st0 =
        { st0 with well_formed := false, errors := b :: st0.errors,
                   diagnostics := st0.diagnostics ++ [.unreachable_branch this b] }) ∧
    (∀ (b : Nat) (st0 : WFState), b ∈ st0.errors → error_unreachable_branches this b st0 = st0) := by
  refine ⟨?_, ?_, fun b st0 hm => error_unreachable_branches_not_mem hm,
          fun b st0 hm => error_unreachable_branches_mem hm⟩
  · rw [walk_expr.eq_def]
    simp only [h]
  · intro c rest acc st0
    constructor
    · intro hor
      rw [choice_fold.eq_def]
      rcases hor with hrest | hcf
      · subst hrest
        simp
      · simp only [hcf, Bool.not_true, Bool.and_false, Bool.false_eq_true, if_false]
    · intro hrest hcf
      rw [choice_fold.eq_def]
      have hne : rest.isEmpty = false := by
        cases rest with
        | nil => exact absurd rfl hrest
        | cons a as => rfl
      simp only [hne, hcf, Bool.not_false, Bool.and_self, if_true]

/-- Witness for the amended claim C5: the dispatch equation at the choice
    of grammar `G5`. -/
theorem c5_choice_fold_witness :
    G5.expr_by_index 3 = .choice [1, 2] ∧
    walk_expr G5 50 (initial_state G5) 3
      = choice_fold G5 49 3 [1, 2] ⟨true, false, true, true⟩ (initial_state G5) :=
  ⟨by decide, (c5_choice_fold G5 49 (initial_state G5) 3 [1, 2] (by decide)).1⟩

/-- Counterexample to claim C5 as stated: at the second visit of the choice
    of `s = "w"? / "y"` (grammar `G5`, reached via `r = s s`) the non-last
    child 1 cannot fail, yet no UnreachableBranch diagnostic is emitted,
    because index 1 is already registered. -/
theorem c5_counterexample :
    (visit_expr G5 49 stC5 1).1.can_fail = false ∧
    (choice_fold G5 50 3 [1, 2] ⟨true, false, true, true⟩ stC5).2.diagnostics
      = stC5.diagnostics := by
  refine ⟨by decide, by decide⟩

/-- Claim C6 (amended): `e*` and `e+` share the repeat analysis: when the
    child WFA can succeed without always consuming, the repeat node gets a
    LoopRepeat diagnostic (unless its index is already registered) and the
    base WFA is the top value `(T, T, T, F)`; otherwise the base WFA is the
    child WFA unchanged.  `e+` returns the base directly, `e*` returns
    `always_succeed(base.never_consume) = (F, T, F, base.never_consume)`. -/
theorem c6_repeat (g : AGrammar) (f : Nat) (st : WFState) (this c : Nat) :
    (g.expr_by_index this = .zero_or_more c →
      walk_expr g (f + 1) st this =
        (WFA.always_succeed
          (repeat_wfa this (visit_expr g f st c).1 (visit_expr g f st c).2).1.never_consume,
         (repeat_wfa this (visit_expr g f st c).1 (visit_expr g f st c).2).2)) ∧
    (g.expr_by_index this = .one_or_more c →
      walk_expr g (f + 1) st this
        = repeat_wfa this (visit_expr g f st c).1 (visit_expr g f st c).2) ∧
    (∀ (w : WFA) (st0 : WFState),
      (w.can_succeed = true → w.always_consume = false →
        repeat_wfa this w st0 = (WFA.default, error_loop_repeat this st0)) ∧
      (w.can_succeed = false ∨ w.always_consume = true → repeat_wfa this w st0 = (w, st0))) ∧
    (∀ st0 : WFState, this ∉ st0.errors → error_loop_repeat this st0 =
      { st0 with well_formed := false, errors := this :: st0.errors,
                 diagnostics := st0.diagnostics ++ [.loop_repeat this] }) ∧
    (∀ st0 : WFState, this ∈ st0.errors → error_loop_repeat this st0 = st0) ∧
    WFA.default = ⟨true, true, true, false⟩ ∧
    (∀ b : Bool, WFA.always_succeed b = ⟨false, true, false, b⟩) := by
  refine ⟨?_, ?_, ?_, fun st0 hm => error_loop_repeat_not_mem hm,
          fun st0 hm => error_loop_repeat_mem hm, rfl, fun b => rfl⟩
  · intro h
    rw [walk_expr.eq_def]
    simp only [h]
  · intro h
    rw [walk_expr.eq_def]
    simp only [h]
  · intro w st0
    constructor
    · intro hcs hac
      rw [repeat_wfa]
      simp only [hcs, hac, Bool.not_false, Bool.and_self, if_true]
    · intro hor
      rw [repeat_wfa]
      rcases hor with h1 | h1
      · simp only [h1, Bool.false_and, Bool.false_eq_true, if_false]
      · simp only [h1, Bool.not_true, Bool.and_false, Bool.false_eq_true, if_false]

/-- Witness for the amended claim C6: the star dispatch at grammar `G6`. -/
theorem c6_repeat_witness :
    G6.expr_by_index 2 = .zero_or_more 1 ∧
    walk_expr G6 50 (initial_state G6) 2 =
      (WFA.always_succeed
        (repeat_wfa 2 (visit_expr G6 49 (initial_state G6) 1).1
          (visit_expr G6 49 (initial_state G6) 1).2).1.never_consume,
       (repeat_wfa 2 (visit_expr G6 49 (initial_state G6) 1).1
          (visit_expr G6 49 (initial_state G6) 1).2).2) :=
  ⟨by decide, (c6_repeat G6 49 (initial_state G6) 2 1).1 (by decide)⟩

/-- Counterexample to claim C6 as stated: at the second visit of the star
    of `s = (!.)*` (grammar `G6`, reached via `r = s s`) the child can
    succeed without always consuming, yet no LoopRepeat diagnostic is
    emitted, because index 2 is already registered. -/
theorem c6_counterexample :
    (visit_expr G6 49 stC6 1).1 = ⟨true, true, false, true⟩ ∧
    (walk_expr G6 50 stC6 2).2.diagnostics = stC6.diagnostics := by
  refine ⟨by decide, by decide⟩

/-- Claim C7 (amended): after the per-kind WFA of an expression is
    computed, exactly two expression-level checks run: a `can_fail ∧
    ¬can_succeed` WFA gets a NeverSucceed diagnostic (unless the index is
    already registered) and `can_succeed` is forced to true; otherwise a
    `can_succeed ∧ ¬can_fail ∧ never_consume` WFA gets an
    AlwaysSucceedNoConsume diagnostic (same registration caveat) and
    `never_consume` is cleared; in all other cases the WFA and the state
    pass through unchanged. -/
theorem c7_post (g : AGrammar) (f : Nat) (st : WFState) (i : Nat) :
    (visit_expr g (f + 1) st i
      = post_wfa i (walk_expr g f st i).1 (walk_expr g f st i).2) ∧
    (∀ (w : WFA) (st0 : WFState),
      (w.can_fail = true → w.can_succeed = false →
        post_wfa i w st0 = ({ w with can_succeed := true }, error_never_succeed i st0)) ∧
      (w.can_succeed = true → w.can_fail = false → w.never_consume = true →
        post_wfa i w st0
          = ({ w with never_consume := false }, error_always_succeed_no_consume i st0)) ∧
      (¬(w.can_fail = true ∧ w.can_succeed = false) →
        ¬(w.can_succeed = true ∧ w.can_fail = false ∧ w.never_consume = true) →
        post_wfa i w st0 = (w, st0))) ∧
    (∀ st0 : WFState, i ∉ st0.errors →
      error_never_succeed i st0 =
        { st0 with well_formed := false, errors := i :: st0.errors,
                   diagnostics := st0.diagnostics ++ [.never_succeed i] } ∧
      error_always_succeed_no_consume i st0 =
        { st0 with well_formed := false, errors := i :: st0.errors,
                   diagnostics := st0.diagnostics ++ [.always_succeed_no_consume i] }) ∧
    (∀ st0 : WFState, i ∈ st0.errors →
      error_never_succeed i st0 = st0 ∧ error_always_succeed_no_consume i st0 = st0) := by
  refine ⟨?_, ?_,
          fun st0 hm => ⟨error_never_succeed_not_mem hm,
                         error_always_succeed_no_consume_not_mem hm⟩,
          fun st0 hm => ⟨error_never_succeed_mem hm,
                         error_always_succeed_no_consume_mem hm⟩⟩
  · rw [visit_expr.eq_def]
  · intro w st0
    obtain ⟨cf, cs, ac, nc⟩ := w
    refine ⟨?_, ?_, ?_⟩
    · intro h1 h2
      simp only at h1 h2
      subst h1; subst h2
      simp [post_wfa]
    · intro h1 h2 h3
      simp only at h1 h2 h3
      subst h1; subst h2; subst h3
      simp [post_wfa]
    · intro h1 h2
      cases cf <;> cases cs <;> cases nc <;> simp_all [post_wfa]

/-- Witness for the amended claim C7: the never-succeed recovery fires at
    the body of rule `s` of grammar `G7` on the first visit. -/
theorem c7_post_witness :
    post_wfa 1 ⟨true, false, false, true⟩ (initial_state G7)
      = ({ (⟨true, false, false, true⟩ : WFA) with can_succeed := true },
         error_never_succeed 1 (initial_state G7)) :=
  ((c7_post G7 49 (initial_state G7) 1).2.1 ⟨true, false, false, true⟩
    (initial_state G7)).1 rfl rfl

/-- Counterexample to claim C7 as stated: at the second visit of the body
    of `s = !""` (grammar `G7`, reached via `r = s s`) the WFA satisfies
    `can_fail ∧ ¬can_succeed`, the recovery still forces `can_succeed`,
    but no NeverSucceed diagnostic is emitted, because index 1 is already
    registered. -/
theorem c7_counterexample :
    (walk_expr G7 49 stC7 1).1 = ⟨true, false, false, true⟩ ∧
    (post_wfa 1 ⟨true, false, false, true⟩ stC7).2.diagnostics = stC7.diagnostics ∧
    (post_wfa 1 ⟨true, false, false, true⟩ stC7).1 = ⟨true, true, false, true⟩ := by
  refine ⟨by decide, by decide, by decide⟩

end Oak

namespace Oak

/-- The analyser-state invariant tying the `well_formed` flag, the `errors`
    set and the emitted diagnostics together: the flag is cleared exactly
    when an index is registered, every diagnostic's registration key is
    registered, keys are pairwise distinct (the `errors` set suppresses
    re-emission), and registration only happens alongside an emission. -/
def Inv (g : AGrammar) (st : WFState) : Prop :=
  (st.well_formed = false ↔ st.errors ≠ []) ∧
  (∀ d ∈ st.diagnostics, d.reg_key g ∈ st.errors) ∧
  (st.diagnostics.map (Diagnostic.reg_key g)).Nodup ∧
  (st.errors ≠ [] → st.diagnostics ≠ [])

theorem inv_emit {g : AGrammar} {st : WFState} {i : Nat} {d : Diagnostic}
    (hk : d.reg_key g = i) (hm : i ∉ st.errors) (h : Inv g st) :
    Inv g { st with well_formed := false, errors := i :: st.errors,
                    diagnostics := st.diagnostics ++ [d] } := by
  obtain ⟨h1, h2, h3, h4⟩ := h
  have hik : i ∉ st.diagnostics.map (Diagnostic.reg_key g) := by
    intro hmem
    rcases List.mem_map.mp hmem with ⟨d2, hd2, hkey⟩
    exact hm (hkey ▸ h2 d2 hd2)
  refine ⟨by simp, ?_, ?_, by simp⟩
  · intro d2 hd2
    rcases List.mem_append.mp hd2 with hmem | hmem
    · exact List.mem_cons_of_mem _ (h2 d2 hmem)
    · have : d2 = d := by simpa using hmem
      subst this
      rw [hk]
      exact List.mem_cons_self _ _
  · rw [List.map_append]
    rw [List.nodup_append]
    refine ⟨h3, List.nodup_singleton _, ?_⟩
    intro a ha hb
    simp only [List.map_cons, List.map_nil, List.mem_singleton] at hb
    subst hb
    exact hik (hk ▸ ha)

theorem inv_error_never_succeed {g : AGrammar} {st : WFState} (i : Nat) (h : Inv g st) :
    Inv g (error_never_succeed i st) := by
  by_cases hm : i ∈ st.errors
  · rw [error_never_succeed_mem hm]; exact h
  · rw [error_never_succeed_not_mem hm]; exact inv_emit rfl hm h

theorem inv_error_always_succeed_no_consume {g : AGrammar} {st : WFState} (i : Nat)
    (h : Inv g st) : Inv g (error_always_succeed_no_consume i st) := by
  by_cases hm : i ∈ st.errors
  · rw [error_always_succeed_no_consume_mem hm]; exact h
  · rw [error_always_succeed_no_consume_not_mem hm]; exact inv_emit rfl hm h

theorem inv_error_loop_repeat {g : AGrammar} {st : WFState} (i : Nat) (h : Inv g st) :
    Inv g (error_loop_repeat i st) := by
  by_cases hm : i ∈ st.errors
  · rw [error_loop_repeat_mem hm]; exact h
  · rw [error_loop_repeat_not_mem hm]; exact inv_emit rfl hm h

theorem inv_error_unreachable_branches {g : AGrammar} {st : WFState} (c b : Nat)
    (h : Inv g st) : Inv g (error_unreachable_branches c b st) := by
  by_cases hm : b ∈ st.errors
  · rw [error_unreachable_branches_mem hm]; exact h
  · rw [error_unreachable_branches_not_mem hm]; exact inv_emit rfl hm h

theorem inv_error_left_recursion {g : AGrammar} {st : WFState} (r : String) (h : Inv g st) :
    Inv g (error_left_recursion g r st) := by
  by_cases hm : g.expr_index_of_rule r ∈ st.errors
  · rw [error_left_recursion_mem hm]
    obtain ⟨h1, h2, h3, h4⟩ := h
    have hne : st.errors ≠ [] := by
      intro he
      rw [he] at hm
      exact absurd hm (List.not_mem_nil _)
    exact ⟨by simp [hne], h2, h3, h4⟩
  · rw [error_left_recursion_not_mem hm]; exact inv_emit rfl hm h

theorem inv_post_wfa {g : AGrammar} {st : WFState} (i : Nat) (w : WFA) (h : Inv g st) :
    Inv g (post_wfa i w st).2 := by
  rw [post_wfa]
  split
  · exact inv_error_never_succeed i h
  · split
    · exact inv_error_always_succeed_no_consume i h
    · exact h

theorem inv_repeat_wfa {g : AGrammar} {st : WFState} (i : Nat) (w : WFA) (h : Inv g st) :
    Inv g (repeat_wfa i w st).2 := by
  rw [repeat_wfa]
  split
  · exact inv_error_loop_repeat i h
  · exact h

theorem inv_visit (g : AGrammar) : ∀ fuel : Nat,
    (∀ st this, Inv g st → Inv g (visit_expr g fuel st this).2) ∧
    (∀ st this, Inv g st → Inv g (walk_expr g fuel st this).2) ∧
    (∀ st r, Inv g st → Inv g (visit_rule g fuel st r).2) ∧
    (∀ cs acc st, Inv g st → Inv g (seq_fold g fuel cs acc st).2) ∧
    (∀ this cs acc st, Inv g st → Inv g (choice_fold g fuel this cs acc st).2) := by
  intro fuel
  induction fuel with
  | zero =>
    refine ⟨fun st this h => h, fun st this h => h, ?_, ?_, ?_⟩
    · intro st r h
      rw [visit_rule.eq_def]
      by_cases hr : is_rec st r = true
      · simp only [hr, if_true]
        by_cases hc : (!consume_input_since st r && !st.consumed_input) = true
        · simp only [hc, if_true]
          exact inv_error_left_recursion r h
        · have hc2 : (!consume_input_since st r && !st.consumed_input) = false := by
            revert hc
            cases (!consume_input_since st r && !st.consumed_input) <;> simp
          simp only [hc2, Bool.false_eq_true, if_false]
          exact h
      · have hr2 : is_rec st r = false := by
          revert hr
          cases is_rec st r <;> simp
        simp only [hr2, Bool.false_eq_true, if_false]
        exact h
    · intro cs acc st h
      cases cs with
      | nil => exact h
      | cons c cs2 => exact h
    · intro this cs acc st h
      cases cs with
      | nil => exact h
      | cons c cs2 => exact h
  | succ f ih =>
    obtain ⟨ihe, ihw, ihr, ihs, ihc⟩ := ih
    have hexpr : ∀ st this, Inv g st → Inv g (visit_expr g (f + 1) st this).2 := by
      intro st this h
      rw [visit_expr.eq_def]
      exact inv_post_wfa this (walk_expr g f st this).1 (ihw st this h)
    have hwalk : ∀ st this, Inv g st → Inv g (walk_expr g (f + 1) st this).2 := by
      intro st this h
      rw [walk_expr.eq_def]
      rcases hx : g.expr_by_index this with lit | _ | _ | r | cs | cs | c | c | c | c | c <;>
        simp only
      · exact h
      · exact h
      · exact h
      · exact ihr st r h
      · exact ihs cs ⟨false, true, false, true⟩ st h
      · exact ihc this cs ⟨true, false, true, true⟩ st h
      · exact inv_repeat_wfa this (visit_expr g f st c).1 (ihe st c h)
      · exact inv_repeat_wfa this (visit_expr g f st c).1 (ihe st c h)
      · exact ihe st c h
      · exact ihe st c h
      · exact ihe st c h
    have hrule : ∀ st r, Inv g st → Inv g (visit_rule g (f + 1) st r).2 := by
      intro st r h
      rw [visit_rule.eq_def]
      by_cases hr : is_rec st r = true
      · simp only [hr, if_true]
        by_cases hc : (!consume_input_since st r && !st.consumed_input) = true
        · simp only [hc, if_true]
          exact inv_error_left_recursion r h
        · have hc2 : (!consume_input_since st r && !st.consumed_input) = false := by
            revert hc
            cases (!consume_input_since st r && !st.consumed_input) <;> simp
          simp only [hc2, Bool.false_eq_true, if_false]
          exact h
      · have hr2 : is_rec st r = false := by
          revert hr
          cases is_rec st r <;> simp
        simp only [hr2, Bool.false_eq_true, if_false]
        have hres := ihe
          { st with recursion_path := (r, st.consumed_input) :: st.recursion_path,
                    consumed_input := false }
          (g.expr_index_of_rule r) h
        split
        · exact hres
        · exact hres
    refine ⟨hexpr, hwalk, hrule, ?_, ?_⟩
    · intro cs acc st h
      cases cs with
      | nil => exact h
      | cons c cs2 =>
        rw [seq_fold.eq_def]
        simp only
        apply ihs
        split
        · exact ihe st c h
        · exact ihe st c h
    · intro this cs acc st h
      cases cs with
      | nil => exact h
      | cons c cs2 =>
        rw [choice_fold.eq_def]
        simp only
        split
        · exact inv_error_unreachable_branches this c (ihe st c h)
        · apply ihc
          exact ihe st c h

theorem inv_visit_rules_pass (g : AGrammar) (fuel : Nat) :
    ∀ (rs : List Rule) (st : WFState), Inv g st → Inv g (visit_rules_pass g fuel rs st) := by
  intro rs
  induction rs with
  | nil => intro st h; exact h
  | cons r rs2 ih =>
    intro st h
    rw [visit_rules_pass]
    have hr := (inv_visit g fuel).2.2.1 st r.ident h
    split
    · exact ih _ hr
    · exact hr

theorem inv_visit_rules (g : AGrammar) (fuel : Nat) :
    ∀ (passes : Nat) (st : WFState), Inv g st → Inv g (visit_rules g passes fuel st) := by
  intro passes
  induction passes with
  | zero => intro st h; exact h
  | succ p ih =>
    intro st h
    rw [visit_rules]
    split
    · exact ih _ (inv_visit_rules_pass g fuel g.rules _ h)
    · exact h

theorem inv_initial_state (g : AGrammar) : Inv g (initial_state g) := by
  refine ⟨by simp [initial_state], ?_, by simp [initial_state], by simp [initial_state]⟩
  intro d hd
  simp [initial_state] at hd

theorem inv_run_analysis (g : AGrammar) (passes fuel : Nat) :
    Inv g (run_analysis g passes fuel) :=
  inv_visit_rules g fuel passes (initial_state g) (inv_initial_state g)

end Oak

namespace Oak

/-- Claim C1: `WellFormedness::analyse` returns `Value` carrying the input
    grammar exactly when `well_formed` stayed true, which happens exactly
    when no diagnostic was emitted; otherwise it returns `Nothing`; it never
    returns `Fake`. -/
theorem c1_analyse_value_or_nothing (g : AGrammar) (passes fuel : Nat) :
    (∀ g2 : AGrammar, analyse g passes fuel ≠ Outcome.fake g2) ∧
    (analyse g passes fuel = Outcome.value g ↔
      (run_analysis g passes fuel).well_formed = true) ∧
    ((run_analysis g passes fuel).well_formed = true ↔
      (run_analysis g passes fuel).diagnostics = []) ∧
    (analyse g passes fuel = Outcome.nothing ↔
      (run_analysis g passes fuel).well_formed = false) := by
  have hinv := inv_run_analysis g passes fuel
  obtain ⟨h1, h2, h3, h4⟩ := hinv
  by_cases hw : (run_analysis g passes fuel).well_formed = true
  · have herr : (run_analysis g passes fuel).errors = [] := by
      by_contra hne
      rw [h1.mpr hne] at hw
      exact absurd hw (by simp)
    have hdia : (run_analysis g passes fuel).diagnostics = [] := by
      cases hd : (run_analysis g passes fuel).diagnostics with
      | nil => rfl
      | cons d ds =>
        have hmem := h2 d (by rw [hd]; exact List.mem_cons_self _ _)
        rw [herr] at hmem
        exact absurd hmem (List.not_mem_nil _)
    refine ⟨?_, ?_, by simp [hw, hdia], ?_⟩
    · intro g2
      simp [analyse, hw]
    · simp [analyse, hw]
    · simp [analyse, hw]
  · have hw2 : (run_analysis g passes fuel).well_formed = false := by
      revert hw
      cases (run_analysis g passes fuel).well_formed <;> simp
    have hdia : (run_analysis g passes fuel).diagnostics ≠ [] := h4 (h1.mp hw2)
    refine ⟨?_, ?_, by simp [hw2, hdia], ?_⟩
    · intro g2
      simp [analyse, hw2]
    · simp [analyse, hw2]
    · simp [analyse, hw2]

/-- Witness for claim C1: the clean spec scenario `b = "a" b "b" / "b" b`
    comes back as `Value`, and a failing grammar comes back as `Nothing`. -/
theorem c1_analyse_value_or_nothing_witness :
    analyse Gs2 20 50 = Outcome.value Gs2 ∧ analyse Gc3 20 50 = Outcome.nothing :=
  ⟨(c1_analyse_value_or_nothing Gs2 20 50).2.1.mpr (by decide),
   (c1_analyse_value_or_nothing Gc3 20 50).2.2.2.mpr (by decide)⟩

theorem countP_le_one_of_nodup_map {α β : Type} [DecidableEq β] (f : α → β) :
    ∀ (l : List α) (k : β), (l.map f).Nodup → l.countP (fun a => f a == k) ≤ 1 := by
  intro l
  induction l with
  | nil => intro k h; simp
  | cons a l2 ih =>
    intro k h
    rw [List.map_cons, List.nodup_cons] at h
    obtain ⟨hna, hnd⟩ := h
    rw [List.countP_cons]
    by_cases hp : (f a == k) = true
    · have hfa : f a = k := by simpa using hp
      have hzero : l2.countP (fun x => f x == k) = 0 := by
        rw [List.countP_eq_zero]
        intro x hx hfx
        have : f x = k := by simpa using hfx
        exact hna (by rw [hfa, ← this]; exact List.mem_map_of_mem f hx)
      simp [hp, hzero]
    · have : (f a == k) = false := by
        revert hp
        cases (f a == k) <;> simp
      simp only [this, Bool.false_eq_true, if_false, Nat.add_zero]
      exact ih k hnd

/-- Claim C4 (amended): during one analysis at most one diagnostic is
    emitted per registered expression index (the key of the `errors` set:
    the rule's body index for LeftRecursion, the infallible branch for
    UnreachableBranch, the expression itself otherwise).  Two diagnostics
    can still share a primary span, since UnreachableBranch is registered
    under the branch but attached to the choice. -/
theorem c4_one_diagnostic_per_registered_index (g : AGrammar) (passes fuel i : Nat) :
    (run_analysis g passes fuel).diagnostics.countP (fun d => d.reg_key g == i) ≤ 1 :=
  countP_le_one_of_nodup_map (Diagnostic.reg_key g) _ i
    (inv_run_analysis g passes fuel).2.2.1

/-- Counterexample to claim C4 as stated: on `r = s t ; s = s / "w"? / "y" ;
    t = "z" s` the analysis emits two UnreachableBranch diagnostics whose
    primary span is the span of the choice expression 4 (they are registered
    under the two different branches, so the `errors` set does not suppress
    the second one). -/
theorem c4_counterexample :
    (run_analysis G4 20 50).diagnostics.countP
      (fun d => d.primary_span == Span.expr_span 4) = 2 ∧
    (run_analysis G4 20 50).diagnostics =
      [.left_recursion "s" ["s"], .unreachable_branch 4 1, .unreachable_branch 4 2] := by
  refine ⟨by decide, by decide⟩

end Oak

namespace Oak

/-- The invariant claimed for every WFA that `visit_expr` hands to an
    enclosing expression: it can succeed, it does not both always and never
    consume, and an infallible WFA is never marked never-consuming (so
    neither expression-level error condition matches it any more). -/
def WfaOK (w : WFA) : Prop :=
  w.can_succeed = true ∧ (w.always_consume && w.never_consume) = false ∧
  (w.can_fail = false → w.never_consume = false)

/-- The weaker invariant holding for raw `walk_expr` results (the two
    assertions of `visit_expr` in the source). -/
def WalkOK (w : WFA) : Prop :=
  (w.can_fail || w.can_succeed) = true ∧ (w.always_consume && w.never_consume) = false

/-- The invariant of the sequence/choice accumulators once at least one
    child has been folded in. -/
def AccOK (w : WFA) : Prop :=
  w.can_succeed = true ∧ (w.always_consume && w.never_consume) = false

/-- Every choice node of the grammar has at least one child (the data model
    guarantees at least two). -/
def choice_nonempty : Expression → Bool
  | .choice cs => !cs.isEmpty
  | _ => true

def choices_ok (g : AGrammar) : Prop := ∀ e ∈ g.exprs, choice_nonempty e = true

theorem wfaok_default : WfaOK WFA.default := by
  refine ⟨rfl, rfl, fun h => ?_⟩
  exact absurd h (by decide)

theorem walkok_default : WalkOK WFA.default := ⟨rfl, rfl⟩

theorem accok_default : AccOK WFA.default := ⟨rfl, rfl⟩

theorem accok_to_walkok {w : WFA} (h : AccOK w) : WalkOK w :=
  ⟨by rw [h.1]; exact Bool.or_true _, h.2⟩

theorem wfaok_to_walkok {w : WFA} (h : WfaOK w) : WalkOK w :=
  ⟨by rw [h.1]; exact Bool.or_true _, h.2.1⟩

theorem post_wfa_ok {i : Nat} {w : WFA} {st : WFState} (h : WalkOK w) :
    WfaOK (post_wfa i w st).1 := by
  obtain ⟨cf, cs, ac, nc⟩ := w
  obtain ⟨h1, h2⟩ := h
  cases cf <;> cases cs <;> cases ac <;> cases nc <;> simp_all [post_wfa, WfaOK]

theorem repeat_wfa_ok {i : Nat} {w : WFA} {st : WFState} (h : WfaOK w) :
    WfaOK (repeat_wfa i w st).1 := by
  rw [repeat_wfa]
  split
  · exact wfaok_default
  · exact h

theorem seq_combine_ok {acc w : WFA} (ha : AccOK acc) (hw : WfaOK w) :
    AccOK ⟨acc.can_fail || w.can_fail, acc.can_succeed && w.can_succeed,
           acc.always_consume || w.always_consume,
           acc.never_consume && w.never_consume⟩ := by
  obtain ⟨a1, a2, a3, a4⟩ := acc
  obtain ⟨b1, b2, b3, b4⟩ := w
  obtain ⟨ha1, ha2⟩ := ha
  obtain ⟨hw1, hw2, hw3⟩ := hw
  simp only at ha1 hw1 ha2 hw2 ⊢
  subst ha1
  subst hw1
  cases a3 <;> cases a4 <;> cases b3 <;> cases b4 <;> simp_all [AccOK]

theorem choice_combine_ok {acc w : WFA} (hw : WfaOK w) :
    AccOK ⟨acc.can_fail && w.can_fail, acc.can_succeed || w.can_succeed,
           acc.always_consume && w.always_consume,
           acc.never_consume && w.never_consume⟩ := by
  obtain ⟨a1, a2, a3, a4⟩ := acc
  obtain ⟨b1, b2, b3, b4⟩ := w
  obtain ⟨hw1, hw2, hw3⟩ := hw
  simp only at hw1 hw2 ⊢
  subst hw1
  cases a3 <;> cases a4 <;> cases b3 <;> cases b4 <;> simp_all [AccOK]

theorem lookup_wfa_ok {st : WFState} (r : String)
    (h : ∀ p ∈ st.rules_wfa, WfaOK p.2) : WfaOK (lookup_wfa st r) := by
  unfold lookup_wfa
  cases hf : st.rules_wfa.find? (fun p => p.1 == r) with
  | none => exact wfaok_default
  | some p =>
    simp only [Option.map_some', Option.getD_some]
    exact h p (List.mem_of_find?_eq_some hf)

theorem set_wfa_ok {l : List (String × WFA)} {r : String} {w : WFA}
    (h : ∀ p ∈ l, WfaOK p.2) (hw : WfaOK w) : ∀ p ∈ set_wfa l r w, WfaOK p.2 := by
  intro p hp
  unfold set_wfa at hp
  rcases List.mem_map.mp hp with ⟨q, hq, rfl⟩
  split
  · exact hw
  · exact h q hq

theorem error_never_succeed_rules_wfa (i : Nat) (st : WFState) :
    (error_never_succeed i st).rules_wfa = st.rules_wfa := by
  by_cases hm : i ∈ st.errors
  · rw [error_never_succeed_mem hm]
  · rw [error_never_succeed_not_mem hm]

theorem error_always_succeed_no_consume_rules_wfa (i : Nat) (st : WFState) :
    (error_always_succeed_no_consume i st).rules_wfa = st.rules_wfa := by
  by_cases hm : i ∈ st.errors
  · rw [error_always_succeed_no_consume_mem hm]
  · rw [error_always_succeed_no_consume_not_mem hm]

theorem error_loop_repeat_rules_wfa (i : Nat) (st : WFState) :
    (error_loop_repeat i st).rules_wfa = st.rules_wfa := by
  by_cases hm : i ∈ st.errors
  · rw [error_loop_repeat_mem hm]
  · rw [error_loop_repeat_not_mem hm]

theorem error_unreachable_branches_rules_wfa (c b : Nat) (st : WFState) :
    (error_unreachable_branches c b st).rules_wfa = st.rules_wfa := by
  by_cases hm : b ∈ st.errors
  · rw [error_unreachable_branches_mem hm]
  · rw [error_unreachable_branches_not_mem hm]

theorem post_wfa_rules_wfa (i : Nat) (w : WFA) (st : WFState) :
    (post_wfa i w st).2.rules_wfa = st.rules_wfa := by
  rw [post_wfa]
  split
  · exact error_never_succeed_rules_wfa i st
  · split
    · exact error_always_succeed_no_consume_rules_wfa i st
    · rfl

theorem repeat_wfa_rules_wfa (i : Nat) (w : WFA) (st : WFState) :
    (repeat_wfa i w st).2.rules_wfa = st.rules_wfa := by
  rw [repeat_wfa]
  split
  · exact error_loop_repeat_rules_wfa i st
  · rfl

theorem visit_rule_rec_fields (g : AGrammar) (fuel : Nat) (st : WFState) (r : String)
    (hr : is_rec st r = true) :
    (visit_rule g fuel st r).1 = lookup_wfa (visit_rule g fuel st r).2 r ∧
    (visit_rule g fuel st r).2.rules_wfa = st.rules_wfa := by
  rw [visit_rule.eq_def]
  simp only [hr, if_true]
  refine ⟨by trivial, ?_⟩
  split
  · exact error_left_recursion_rules_wfa g r st
  · rfl

theorem choices_ok_nonempty {g : AGrammar} {this : Nat} {cs : List Nat}
    (hg : choices_ok g) (h : g.expr_by_index this = .choice cs) : cs ≠ [] := by
  unfold AGrammar.expr_by_index at h
  rw [List.getD_eq_getD_get?] at h
  cases hq : g.exprs.get? this with
  | none => rw [hq] at h; simp at h
  | some e =>
    rw [hq] at h
    simp only [Option.getD_some] at h
    subst h
    have hmem := hg _ (List.get?_mem hq)
    simp only [choice_nonempty] at hmem
    intro hnil
    subst hnil
    simp at hmem

end Oak

namespace Oak

theorem wfa_ok_visit (g : AGrammar) (hg : choices_ok g) : ∀ fuel : Nat,
    (∀ st this, (∀ p ∈ st.rules_wfa, WfaOK p.2) →
      WfaOK (visit_expr g fuel st this).1 ∧
      ∀ p ∈ (visit_expr g fuel st this).2.rules_wfa, WfaOK p.2) ∧
    (∀ st this, (∀ p ∈ st.rules_wfa, WfaOK p.2) →
      WalkOK (walk_expr g fuel st this).1 ∧
      ∀ p ∈ (walk_expr g fuel st this).2.rules_wfa, WfaOK p.2) ∧
    (∀ st r, (∀ p ∈ st.rules_wfa, WfaOK p.2) →
      WfaOK (visit_rule g fuel st r).1 ∧
      ∀ p ∈ (visit_rule g fuel st r).2.rules_wfa, WfaOK p.2) ∧
    (∀ cs acc st, (∀ p ∈ st.rules_wfa, WfaOK p.2) → AccOK acc →
      AccOK (seq_fold g fuel cs acc st).1 ∧
      ∀ p ∈ (seq_fold g fuel cs acc st).2.rules_wfa, WfaOK p.2) ∧
    (∀ this cs acc st, (∀ p ∈ st.rules_wfa, WfaOK p.2) → (AccOK acc ∨ cs ≠ []) →
      AccOK (choice_fold g fuel this cs acc st).1 ∧
      ∀ p ∈ (choice_fold g fuel this cs acc st).2.rules_wfa, WfaOK p.2) := by
  have hrec : ∀ fuel st r, is_rec st r = true → (∀ p ∈ st.rules_wfa, WfaOK p.2) →
      WfaOK (visit_rule g fuel st r).1 ∧
      ∀ p ∈ (visit_rule g fuel st r).2.rules_wfa, WfaOK p.2 := by
    intro fuel st r hr hst
    obtain ⟨hf1, hf2⟩ := visit_rule_rec_fields g fuel st r hr
    have hst2 : ∀ p ∈ (visit_rule g fuel st r).2.rules_wfa, WfaOK p.2 := by
      rw [hf2]; exact hst
    exact ⟨hf1 ▸ lookup_wfa_ok r hst2, hst2⟩
  intro fuel
  induction fuel with
  | zero =>
    refine ⟨fun st this h => ⟨wfaok_default, h⟩, fun st this h => ⟨walkok_default, h⟩,
            ?_, ?_, ?_⟩
    · intro st r hst
      by_cases hr : is_rec st r = true
      · exact hrec 0 st r hr hst
      · have hr2 : is_rec st r = false := by
          revert hr
          cases is_rec st r <;> simp
        rw [visit_rule.eq_def]
        simp only [hr2, Bool.false_eq_true, if_false]
        exact ⟨lookup_wfa_ok r hst, hst⟩
    · intro cs acc st hst hacc
      cases cs with
      | nil => exact ⟨hacc, hst⟩
      | cons c cs2 => exact ⟨accok_default, hst⟩
    · intro this cs acc st hst hacc
      cases cs with
      | nil =>
        rcases hacc with hacc | hne
        · exact ⟨hacc, hst⟩
        · exact absurd rfl hne
      | cons c cs2 => exact ⟨accok_default, hst⟩
  | succ f ih =>
    obtain ⟨ihe, ihw, ihr, ihs, ihc⟩ := ih
    have hexpr : ∀ st this, (∀ p ∈ st.rules_wfa, WfaOK p.2) →
        WfaOK (visit_expr g (f + 1) st this).1 ∧
        ∀ p ∈ (visit_expr g (f + 1) st this).2.rules_wfa, WfaOK p.2 := by
      intro st this hst
      rw [visit_expr.eq_def]
      obtain ⟨hw1, hw2⟩ := ihw st this hst
      refine ⟨post_wfa_ok hw1, ?_⟩
      rw [post_wfa_rules_wfa]
      exact hw2
    have hwalk : ∀ st this, (∀ p ∈ st.rules_wfa, WfaOK p.2) →
        WalkOK (walk_expr g (f + 1) st this).1 ∧
        ∀ p ∈ (walk_expr g (f + 1) st this).2.rules_wfa, WfaOK p.2 := by
      intro st this hst
      rw [walk_expr.eq_def]
      rcases hx : g.expr_by_index this with lit | _ | _ | r | cs | cs | c | c | c | c | c <;>
        simp only
      · refine ⟨?_, hst⟩
        split
        · exact ⟨rfl, rfl⟩
        · exact walkok_default
      · exact ⟨walkok_default, hst⟩
      · exact ⟨walkok_default, hst⟩
      · obtain ⟨h1, h2⟩ := ihr st r hst
        exact ⟨wfaok_to_walkok h1, h2⟩
      · obtain ⟨h1, h2⟩ := ihs cs ⟨false, true, false, true⟩ st hst ⟨rfl, rfl⟩
        exact ⟨accok_to_walkok h1, h2⟩
      · obtain ⟨h1, h2⟩ := ihc this cs ⟨true, false, true, true⟩ st hst
          (Or.inr (choices_ok_nonempty hg hx))
        exact ⟨accok_to_walkok h1, h2⟩
      · obtain ⟨h1, h2⟩ := ihe st c hst
        refine ⟨⟨rfl, rfl⟩, ?_⟩
        rw [repeat_wfa_rules_wfa]
        exact h2
      · obtain ⟨h1, h2⟩ := ihe st c hst
        refine ⟨wfaok_to_walkok (repeat_wfa_ok h1), ?_⟩
        rw [repeat_wfa_rules_wfa]
        exact h2
      · obtain ⟨h1, h2⟩ := ihe st c hst
        exact ⟨⟨rfl, rfl⟩, h2⟩
      · obtain ⟨h1, h2⟩ := ihe st c hst
        refine ⟨⟨?_, rfl⟩, h2⟩
        rw [h1.1]
        exact Bool.or_true _
      · obtain ⟨h1, h2⟩ := ihe st c hst
        refine ⟨⟨?_, rfl⟩, h2⟩
        show ((visit_expr g f st c).1.can_succeed || (visit_expr g f st c).1.can_fail) = true
        rw [h1.1]
        rfl
    have hrule : ∀ st r, (∀ p ∈ st.rules_wfa, WfaOK p.2) →
        WfaOK (visit_rule g (f + 1) st r).1 ∧
        ∀ p ∈ (visit_rule g (f + 1) st r).2.rules_wfa, WfaOK p.2 := by
      intro st r hst
      by_cases hr : is_rec st r = true
      · exact hrec (f + 1) st r hr hst
      · have hr2 : is_rec st r = false := by
          revert hr
          cases is_rec st r <;> simp
        rw [visit_rule.eq_def]
        simp only [hr2, Bool.false_eq_true, if_false]
        obtain ⟨h1, h2⟩ := ihe
          { st with recursion_path := (r, st.consumed_input) :: st.recursion_path,
                    consumed_input := false }
          (g.expr_index_of_rule r) hst
        split
        · exact ⟨lookup_wfa_ok r h2, h2⟩
        · exact ⟨lookup_wfa_ok r (set_wfa_ok h2 h1), set_wfa_ok h2 h1⟩
    refine ⟨hexpr, hwalk, hrule, ?_, ?_⟩
    · intro cs acc st hst hacc
      cases cs with
      | nil => exact ⟨hacc, hst⟩
      | cons c cs2 =>
        rw [seq_fold.eq_def]
        simp only
        obtain ⟨h1, h2⟩ := ihe st c hst
        have hst2 : ∀ p ∈ (if (visit_expr g f st c).1.always_consume
            then { (visit_expr g f st c).2 with consumed_input := true }
            else (visit_expr g f st c).2).rules_wfa, WfaOK p.2 := by
          split
          · exact h2
          · exact h2
        exact ihs cs2 _ _ hst2 (seq_combine_ok hacc h1)
    · intro this cs acc st hst hacc
      cases cs with
      | nil =>
        rcases hacc with hacc | hne
        · exact ⟨hacc, hst⟩
        · exact absurd rfl hne
      | cons c cs2 =>
        rw [choice_fold.eq_def]
        simp only
        obtain ⟨h1, h2⟩ := ihe st c hst
        split
        · refine ⟨choice_combine_ok h1, ?_⟩
          rw [error_unreachable_branches_rules_wfa]
          exact h2
        · exact ihc this cs2 _ _ h2 (Or.inl (choice_combine_ok h1))

/-- Claim C10: with every stored rule WFA satisfying the invariant (as the
    seeded defaults do), every WFA returned by `visit_expr` satisfies
    `can_succeed`, not both `always_consume` and `never_consume`, and never
    `can_fail = false` with `never_consume = true`; and every entry written
    into `rules_wfa` (via `fixpoint_update`) keeps satisfying it, so no WFA
    visible to an enclosing expression still matches either expression-level
    error condition. -/
theorem c10_visit_expr_wfa_invariant (g : AGrammar) (fuel : Nat) (st : WFState) (this : Nat)
    (hg : choices_ok g) (hst : ∀ p ∈ st.rules_wfa, WfaOK p.2) :
    WfaOK (visit_expr g fuel st this).1 ∧
    ∀ p ∈ (visit_expr g fuel st this).2.rules_wfa, WfaOK p.2 :=
  (wfa_ok_visit g hg fuel).1 st this hst

instance (w : WFA) : Decidable (WfaOK w) := by
  unfold WfaOK
  infer_instance

instance (g : AGrammar) : Decidable (choices_ok g) := by
  unfold choices_ok
  infer_instance

/-- Witness for claim C10: the clean grammar `Gs2` from its seeded initial
    state. -/
theorem c10_visit_expr_wfa_invariant_witness :
    WfaOK (visit_expr Gs2 50 (initial_state Gs2) 7).1 ∧
    ∀ p ∈ (visit_expr Gs2 50 (initial_state Gs2) 7).2.rules_wfa, WfaOK p.2 :=
  c10_visit_expr_wfa_invariant Gs2 50 (initial_state Gs2) 7 (by decide) (by decide)

end Oak

namespace Oak

/- Embedding of the continuation-passing optional compiler
   (back/continuation.rs and back/compiler/optional.rs).  Host-language
   expressions (`syn::Expr`) are modelled syntactically: `ext` stands for an
   opaque expression produced elsewhere (a continuation expression or a
   compiled child body), `block ss e` for `parse_quote!({ ss… e })`.  The
   three statement forms are exactly the ones the optional template quotes:
   `let m = state.mark();`, `state = e;` and
   `if state.is_failed() { state = state.restore_from_failure(m); }`. -/

mutual
inductive HostExpr where
  | ext (tag : String) : HostExpr
  | block : List HostStmt → HostExpr → HostExpr

inductive HostStmt where
  | let_mark (m : String) : HostStmt
  | assign_state (e : HostExpr) : HostStmt
  | if_failed_restore (m : String) : HostStmt
end

mutual
def beq_host_expr : HostExpr → HostExpr → Bool
  | .ext a, .ext b => a == b
  | .block ss a, .block ts b => beq_host_stmts ss ts && beq_host_expr a b
  | _, _ => false

def beq_host_stmts : List HostStmt → List HostStmt → Bool
  | [], [] => true
  | s :: ss, t :: ts => beq_host_stmt s t && beq_host_stmts ss ts
  | _, _ => false

def beq_host_stmt : HostStmt → HostStmt → Bool
  | .let_mark a, .let_mark b => a == b
  | .assign_state e, .assign_state e2 => beq_host_expr e e2
  | .if_failed_restore a, .if_failed_restore b => a == b
  | _, _ => false
end

/- Syntactic occurrence of an expression inside another (used to state that
   the outer failure continuation does not occur in the produced code). -/

mutual
def occurs_in_expr (x : HostExpr) : HostExpr → Bool
  | .ext t => beq_host_expr x (.ext t)
  | .block ss e => beq_host_expr x (.block ss e) || occurs_in_stmts x ss || occurs_in_expr x e

def occurs_in_stmts (x : HostExpr) : List HostStmt → Bool
  | [] => false
  | s :: ss => occurs_in_stmt x s || occurs_in_stmts x ss

def occurs_in_stmt (x : HostExpr) : HostStmt → Bool
  | .let_mark _ => false
  | .assign_state e => occurs_in_expr x e
  | .if_failed_restore _ => false
end

/-- `struct Continuation` of back/continuation.rs. -/
structure Continuation where
  success : HostExpr
  failure : HostExpr

/-- `Continuation::map_success`: replace the success expression by
    `f(old_success, failure)`. -/
def Continuation.map_success (k : Continuation) (f : HostExpr → HostExpr → HostExpr) :
    Continuation :=
  { k with success := f k.success k.failure }

/-- `Continuation::unwrap_success`. -/
def Continuation.unwrap_success (k : Continuation) : HostExpr := k.success

/-- The quoted block of `OptionalCompiler::compile`:
    `{ let mark = state.mark(); state = body;
       if state.is_failed() { state = state.restore_from_failure(mark); }
       success }`. -/
def optional_block (mark : String) (body success : HostExpr) : HostExpr :=
  .block [.let_mark mark, .assign_state body, .if_failed_restore mark] success

/-- `OptionalCompiler::compile` (used by `compile_recognizer` with `body`
    the recognizer compilation of the child): the closure passed to
    `map_success` ignores the failure expression. -/
def compile_optional (mark : String) (body : HostExpr) (k : Continuation) : HostExpr :=
  (k.map_success (fun success _ => optional_block mark body success)).unwrap_success

/-- Claim C9: compiling `e?` in recognizer mode produces exactly the
    mark/run/restore block falling through to the incoming success
    expression; the produced expression is independent of the incoming
    failure expression, and (for a failure expression that is not a subterm
    of the child body or of the success expression, and is not the whole
    produced block itself) the failure expression does not occur in the
    produced expression. -/
theorem c9_optional_recognizer (mark : String) (body success failure : HostExpr) :
    compile_optional mark body ⟨success, failure⟩
      = .block [.let_mark mark, .assign_state body, .if_failed_restore mark] success ∧
    (∀ f1 f2 : HostExpr,
      compile_optional mark body ⟨success, f1⟩ = compile_optional mark body ⟨success, f2⟩) ∧
    (occurs_in_expr failure body = false → occurs_in_expr failure success = false →
      beq_host_expr failure
        (.block [.let_mark mark, .assign_state body, .if_failed_restore mark] success) = false →
      occurs_in_expr failure (compile_optional mark body ⟨success, failure⟩) = false) := by
  refine ⟨rfl, fun f1 f2 => rfl, ?_⟩
  intro h1 h2 h3
  show occurs_in_expr failure
    (.block [.let_mark mark, .assign_state body, .if_failed_restore mark] success) = false
  simp [occurs_in_expr, occurs_in_stmts, occurs_in_stmt, h1, h2, h3]

/-- Witness for claim C9 at concrete opaque continuation expressions. -/
theorem c9_optional_recognizer_witness :
    compile_optional "m" (.ext "b") ⟨.ext "s", .ext "f"⟩
      = .block [.let_mark "m", .assign_state (.ext "b"), .if_failed_restore "m"] (.ext "s") ∧
    occurs_in_expr (.ext "f")
      (compile_optional "m" (.ext "b") ⟨.ext "s", .ext "f"⟩) = false :=
  ⟨(c9_optional_recognizer "m" (.ext "b") (.ext "s") (.ext "f")).1,
   (c9_optional_recognizer "m" (.ext "b") (.ext "s") (.ext "f")).2.2
     (by decide) (by decide) (by decide)⟩

end Oak

namespace Oak

/- Embedding of the duplicate detector (middle/analysis/duplicate.rs).
   An item exposes `ident()` and `span()`; spans are opaque tokens (Nat).
   The diagnostic of `duplicate_items` carries the current item's span and
   name, the kind word, and the span note pointing at the first
   occurrence. -/

structure DItem where
  ident : String
  span : Nat
  deriving DecidableEq, Repr

structure DupDiag where
  err_span : Nat
  name : String
  kind : String
  note_span : Nat
  note_name : String
  deriving DecidableEq, Repr

/-- `DuplicateItem::populate`, with the accumulated `(items, has_duplicate)`
    state and the emitted diagnostics made explicit. -/
def populate (kind : String) :
    List DItem → List (String × DItem) × Bool × List DupDiag →
    List (String × DItem) × Bool × List DupDiag
  | [], s => s
  | it :: its, (acc, hd, ds) =>
    match acc.find? (fun p => p.1 == it.ident) with
    | some pre =>
      populate kind its (acc, true, ds ++ [⟨it.span, it.ident, kind, pre.2.span, pre.2.ident⟩])
    | none => populate kind its (acc ++ [(it.ident, it)], hd, ds)

/-- `DuplicateItem::analyse` followed by `make`. -/
def dup_analyse (kind : String) (items : List DItem) :
    Outcome (List (String × DItem)) × List DupDiag :=
  let r := populate kind items ([], false, [])
  (if r.2.1 then .fake r.1 else .value r.1, r.2.2)

/-- Modelled from the claim's words: the items of `its` whose identifier
    does not already occur in the prefix `pre`, paired with their
    identifiers, in input order. -/
def spec_retained : List DItem → List DItem → List (String × DItem)
  | _, [] => []
  | pre, it :: its =>
    if pre.any (fun p => p.ident == it.ident) then spec_retained (pre ++ [it]) its
    else (it.ident, it) :: spec_retained (pre ++ [it]) its

/-- The first occurrence of identifier `n` in a list of items. -/
def first_occurrence (items : List DItem) (n : String) : Option DItem :=
  items.find? (fun p => p.ident == n)

/-- Modelled from the claim's words: one diagnostic per later duplicate, in
    input order, each pointing back at the first occurrence. -/
def spec_dup_diags (kind : String) : List DItem → List DItem → List DupDiag
  | _, [] => []
  | pre, it :: its =>
    match first_occurrence pre it.ident with
    | some pre0 =>
      ⟨it.span, it.ident, kind, pre0.span, pre0.ident⟩ :: spec_dup_diags kind (pre ++ [it]) its
    | none => spec_dup_diags kind (pre ++ [it]) its

/-- Whether some item of `its` repeats an identifier of `pre` or an earlier
    identifier of `its`. -/
def spec_has_dup : List DItem → List DItem → Bool
  | _, [] => false
  | pre, it :: its => pre.any (fun p => p.ident == it.ident) || spec_has_dup (pre ++ [it]) its

end Oak

namespace Oak

theorem find_append_one_some {α : Type} {l : List α} {p : α → Bool} {b : α} (a : α)
    (h : l.find? p = some b) : (l ++ [a]).find? p = some b := by
  induction l with
  | nil => cases h
  | cons x xs ih =>
    rw [List.cons_append]
    cases hb : p x
    · rw [List.find?_cons_of_neg _ (by simp [hb])] at h ⊢
      exact ih h
    · rw [List.find?_cons_of_pos _ hb] at h ⊢
      exact h

theorem find_append_one_none {α : Type} {l : List α} {p : α → Bool} (a : α)
    (h : l.find? p = none) : (l ++ [a]).find? p = if p a then some a else none := by
  induction l with
  | nil =>
    cases hb : p a
    · simp [List.find?, hb]
    · simp [List.find?, hb]
  | cons x xs ih =>
    rw [List.cons_append]
    cases hb : p x
    · rw [List.find?_cons_of_neg _ (by simp [hb])] at h ⊢
      exact ih h
    · rw [List.find?_cons_of_pos _ hb] at h
      cases h

theorem populate_spec (kind : String) : ∀ (its pre : List DItem)
    (acc : List (String × DItem)) (hd : Bool) (ds : List DupDiag),
    (∀ n, acc.find? (fun p => p.1 == n)
      = (first_occurrence pre n).map (fun x => (x.ident, x))) →
    populate kind its (acc, hd, ds) =
      (acc ++ spec_retained pre its, hd || spec_has_dup pre its,
       ds ++ spec_dup_diags kind pre its) := by
  intro its
  induction its with
  | nil =>
    intro pre acc hd ds hH
    simp [populate, spec_retained, spec_has_dup, spec_dup_diags]
  | cons it its ih =>
    intro pre acc hd ds hH
    rw [populate]
    have hfind := hH it.ident
    cases hfo : first_occurrence pre it.ident with
    | some pre0 =>
      rw [hfo] at hfind
      simp only [Option.map_some'] at hfind
      have hmem := List.mem_of_find?_eq_some hfo
      have hpred := List.find?_some hfo
      have hany : pre.any (fun p => p.ident == it.ident) = true :=
        List.any_eq_true.mpr ⟨pre0, hmem, hpred⟩
      have hH2 : ∀ n, acc.find? (fun p => p.1 == n)
          = (first_occurrence (pre ++ [it]) n).map (fun x => (x.ident, x)) := by
        intro n
        cases hpn : pre.find? (fun p => p.ident == n) with
        | some x =>
          have hx := hH n
          rw [first_occurrence, hpn] at hx
          rw [first_occurrence, find_append_one_some it hpn]
          exact hx
        | none =>
          have hacc := hH n
          rw [first_occurrence, hpn] at hacc
          have hne : (it.ident == n) = false := by
            cases hb : (it.ident == n)
            · rfl
            · have hi : it.ident = n := by simpa using hb
              subst hi
              rw [first_occurrence] at hfo
              rw [hfo] at hpn
              cases hpn
          rw [first_occurrence, find_append_one_none it hpn, hne]
          simpa using hacc
      split
      · rename_i pre1 heq
        rw [hfind] at heq
        injection heq with heq
        subst heq
        rw [ih (pre ++ [it]) acc true _ hH2]
        simp only [spec_retained, spec_has_dup, spec_dup_diags, hany, if_true, hfo]
        simp [List.append_assoc]
      · rename_i heq
        rw [hfind] at heq
        cases heq
    | none =>
      rw [hfo] at hfind
      simp only [Option.map_none'] at hfind
      have hany : pre.any (fun p => p.ident == it.ident) = false := by
        cases hb : pre.any (fun p => p.ident == it.ident)
        · rfl
        · rcases List.any_eq_true.mp hb with ⟨x, hx, hpx⟩
          rw [first_occurrence] at hfo
          exact absurd hpx (List.find?_eq_none.mp hfo x hx)
      have hH2 : ∀ n, (acc ++ [(it.ident, it)]).find? (fun p => p.1 == n)
          = (first_occurrence (pre ++ [it]) n).map (fun x => (x.ident, x)) := by
        intro n
        cases hpn : pre.find? (fun p => p.ident == n) with
        | some x =>
          have hx := hH n
          rw [first_occurrence, hpn] at hx
          simp only [Option.map_some'] at hx
          rw [first_occurrence, find_append_one_some it hpn,
              find_append_one_some (it.ident, it) hx]
          rfl
        | none =>
          have hacc := hH n
          rw [first_occurrence, hpn] at hacc
          simp only [Option.map_none'] at hacc
          rw [first_occurrence, find_append_one_none it hpn,
              find_append_one_none (it.ident, it) hacc]
          cases hb : (it.ident == n) <;> simp [hb]
      split
      · rename_i pre1 heq
        rw [hfind] at heq
        cases heq
      · rename_i heq
        rw [ih (pre ++ [it]) (acc ++ [(it.ident, it)]) hd ds hH2]
        simp only [spec_retained, spec_has_dup, spec_dup_diags, hany,
          Bool.false_eq_true, if_false, Bool.false_or, hfo]
        simp [List.append_assoc]


end Oak

namespace Oak

theorem any_ident_eq_false_iff (pre : List DItem) (n : String) :
    pre.any (fun p => p.ident == n) = false ↔ n ∉ pre.map DItem.ident := by
  rw [List.any_eq_false]
  constructor
  · intro h hmem
    rcases List.mem_map.mp hmem with ⟨a, ha, he⟩
    exact h a ha (by simp [he])
  · intro h x hx hb
    exact h (List.mem_map.mpr ⟨x, hx, by simpa using hb⟩)

theorem spec_has_dup_eq_false_iff : ∀ (its pre : List DItem),
    spec_has_dup pre its = false ↔
      ((its.map DItem.ident).Nodup ∧
       ∀ n ∈ its.map DItem.ident, n ∉ pre.map DItem.ident) := by
  intro its
  induction its with
  | nil => intro pre; simp [spec_has_dup]
  | cons it its ih =>
    intro pre
    rw [spec_has_dup, Bool.or_eq_false_iff, ih (pre ++ [it]), any_ident_eq_false_iff]
    simp only [List.map_cons, List.nodup_cons, List.mem_cons, List.map_append,
      List.mem_append, List.map_singleton, List.mem_singleton, List.map_nil,
      List.not_mem_nil, or_false]
    constructor
    · rintro ⟨h1, h2, h3⟩
      refine ⟨⟨?_, h2⟩, ?_⟩
      · intro hmem
        exact h3 it.ident hmem (Or.inr rfl)
      · rintro n (rfl | hn)
        · exact h1
        · intro hp
          exact h3 n hn (Or.inl hp)
    · rintro ⟨⟨h1, h2⟩, h3⟩
      refine ⟨h3 it.ident (Or.inl rfl), h2, ?_⟩
      rintro n hn (hp | rfl)
      · exact h3 n (Or.inr hn) hp
      · exact h1 hn

theorem spec_retained_of_distinct (kind : String) : ∀ (its pre : List DItem),
    (its.map DItem.ident).Nodup →
    (∀ n ∈ its.map DItem.ident, n ∉ pre.map DItem.ident) →
    spec_retained pre its = its.map (fun it => (it.ident, it)) ∧
    spec_dup_diags kind pre its = [] := by
  intro its
  induction its with
  | nil => intro pre _ _; exact ⟨rfl, rfl⟩
  | cons it its ih =>
    intro pre hnd hdis
    have hhead : it.ident ∉ pre.map DItem.ident := hdis it.ident (by simp)
    have hany : pre.any (fun p => p.ident == it.ident) = false :=
      (any_ident_eq_false_iff pre it.ident).mpr hhead
    have hfo : first_occurrence pre it.ident = none := by
      rw [first_occurrence, List.find?_eq_none]
      intro x hx hb
      exact hhead (List.mem_map.mpr ⟨x, hx, by simpa using hb⟩)
    rw [List.map_cons, List.nodup_cons] at hnd
    have hdis2 : ∀ n ∈ its.map DItem.ident, n ∉ (pre ++ [it]).map DItem.ident := by
      intro n hn
      rw [List.map_append, List.map_singleton]
      intro hmem
      rcases List.mem_append.mp hmem with hmem | hmem
      · exact hdis n (by simp [hn]) hmem
      · rw [List.mem_singleton] at hmem
        subst hmem
        exact hnd.1 hn
    have hih := ih (pre ++ [it]) hnd.2 hdis2
    rw [spec_retained, spec_dup_diags]
    simp only [hany, Bool.false_eq_true, if_false, hfo]
    exact ⟨by rw [List.map_cons, hih.1], hih.2⟩

/-- Claim C8: `DuplicateItem::analyse` emits one diagnostic per duplicate
    (at the duplicate's span, naming it, with a span note at the first
    occurrence), keeps exactly the first occurrence of each identifier in
    input order, and returns `Value` of the items in input order when the
    identifiers are pairwise distinct, `Fake` of the retained items
    otherwise. -/
theorem c8_duplicate_detection (kind : String) (items : List DItem) :
    (dup_analyse kind items).2 = spec_dup_diags kind [] items ∧
    (dup_analyse kind items).1 =
      (if (items.map DItem.ident).Nodup then Outcome.value (spec_retained [] items)
       else Outcome.fake (spec_retained [] items)) ∧
    ((items.map DItem.ident).Nodup →
      dup_analyse kind items = (.value (items.map (fun it => (it.ident, it))), [])) := by
  have hmain := populate_spec kind items [] [] false [] (fun n => rfl)
  by_cases hnd : (items.map DItem.ident).Nodup
  · have hsd : spec_has_dup [] items = false :=
      (spec_has_dup_eq_false_iff items []).mpr ⟨hnd, by simp⟩
    have hsr := spec_retained_of_distinct kind items [] hnd (by simp)
    refine ⟨?_, ?_, ?_⟩
    · simp [dup_analyse, hmain]
    · simp [dup_analyse, hmain, hsd, hnd]
    · intro _
      simp [dup_analyse, hmain, hsd, hsr.1, hsr.2]
  · have hsd : spec_has_dup [] items = true := by
      cases hb : spec_has_dup [] items
      · exact absurd ((spec_has_dup_eq_false_iff items []).mp hb).1 hnd
      · rfl
    refine ⟨?_, ?_, fun h => absurd h hnd⟩
    · simp [dup_analyse, hmain]
    · simp [dup_analyse, hmain, hsd, hnd]

/-- Witness for claim C8 on a duplicate-free input and on an input with a
    duplicate. -/
theorem c8_duplicate_detection_witness :
    dup_analyse "rule" [⟨"a", 0⟩, ⟨"b", 1⟩]
      = (.value [("a", ⟨"a", 0⟩), ("b", ⟨"b", 1⟩)], []) :=
  (c8_duplicate_detection "rule" [⟨"a", 0⟩, ⟨"b", 1⟩]).2.2 (by decide)

end Oak
